import Mathlib

/-!
Shallow embedding of the `ca-bloom-filter` repository (src/BloomFilter.js,
src/SafeBloomFilter.js, src/index.js) and proofs of the specified properties.

The external murmur hash is an opaque seeded string hash; we model the core
hash computation as a parameter `H : Nat -> String -> Nat` (seed, input).
The `imurmurhash` object API (incremental `hash`, `result`, `reset`) is
modelled by the accumulated input string plus the seed.
-/

namespace BloomSpec

def seedOne : Nat := 535345345

def seedTwo : Nat := 312312323

/-- Model of an `imurmurhash` instance: its seed and the accumulated input.
`new MurMur(text, seed)` hashes `text` into a fresh state. -/
structure MurMur where
  seed : Nat
  acc : String
deriving DecidableEq

/-- `m.hash(key)` appends `key` to the accumulated input (incremental hashing). -/
def MurMur.hash (m : MurMur) (key : String) : MurMur :=
  ⟨m.seed, m.acc ++ key⟩

/-- `m.result()`: hash of the accumulated input under the seed, via the
murmur core function `H`. -/
def MurMur.result (H : Nat → String → Nat) (m : MurMur) : Nat :=
  H m.seed m.acc

/-- `m.reset(seed)` re-initialises the instance to a fresh state with `seed`. -/
def MurMur.reset (_ : MurMur) (seed : Nat) : MurMur :=
  ⟨seed, ""⟩

/-- `new MurMur('', seed)`. -/
def MurMur.init (seed : Nat) : MurMur :=
  ⟨seed, ""⟩

/-- State of the `BloomFilter` class of src/BloomFilter.js: bit length,
number of hash functions, bit array, the two seeded hash instances, and the
insert counter. -/
structure BloomFilter where
  bits : Nat
  k : Nat
  bitArray : List Bool
  hashOne : MurMur
  hashTwo : MurMur
  inserts : Nat
deriving DecidableEq

/-- `new BloomFilter(bits, numHashers)`: zeroed bit array, freshly seeded
hash instances, zero inserts. -/
def BloomFilter.init (bits numHashers : Nat) : BloomFilter :=
  ⟨bits, numHashers, List.replicate bits false, MurMur.init seedOne, MurMur.init seedTwo, 0⟩

/-- `bloomFilter.calculateBitIndices(key)` of src/BloomFilter.js: computes
`hash1`, `hash2` from the two owned (stateful) hash instances, pushes
`(hash1 + i * hash2) % bits` for `i = 0 .. k-1`, then resets both hash
instances to their seeds. Returns the index list and the updated state. -/
def calculateBitIndices (H : Nat → String → Nat) (bf : BloomFilter) (key : String) :
    List Nat × BloomFilter :=
  let h1m := bf.hashOne.hash key
  let hash1 := h1m.result H
  let h2m := bf.hashTwo.hash key
  let hash2 := h2m.result H
  let kHashes := (List.range bf.k).map (fun i => (hash1 + i * hash2) % bf.bits)
  (kHashes, { bf with hashOne := h1m.reset seedOne, hashTwo := h2m.reset seedTwo })

/-- Setting each index of `idx` to 1 in the bit array, in order
(the loop body `this.bitArray.set(indices[i], 1)`). -/
def setBits (arr : List Bool) (idx : List Nat) : List Bool :=
  idx.foldl (fun a i => a.set i true) arr

/-- `bloomFilter.add(key)` of src/BloomFilter.js: sets every computed index
and increments `inserts` by 1 unconditionally. -/
def BloomFilter.add (H : Nat → String → Nat) (bf : BloomFilter) (key : String) : BloomFilter :=
  let p := calculateBitIndices H bf key
  { p.2 with bitArray := setBits p.2.bitArray p.1, inserts := p.2.inserts + 1 }

/-- `bloomFilter.contains(key)` of src/BloomFilter.js: true iff every
computed index holds a set bit (the loop returns false at the first unset
bit). Returns the answer together with the filter state after the call. -/
def BloomFilter.contains (H : Nat → String → Nat) (bf : BloomFilter) (key : String) :
    Bool × BloomFilter :=
  let p := calculateBitIndices H bf key
  (p.1.all (fun i => p.2.bitArray.getD i false), p.2)

/-- Folding a sequence of `add` operations over a list of keys. -/
def addAll (H : Nat → String → Nat) (bf : BloomFilter) (keys : List String) : BloomFilter :=
  keys.foldl (BloomFilter.add H) bf

/-- `(+rate.toFixed(3))`: rounding to 3 decimal digits (half away from zero;
all rates here are non-negative, so half-up coincides). -/
noncomputable def round3 (x : ℝ) : ℝ :=
  (⌊x * 1000 + 1 / 2⌋ : ℤ) / 1000

/-- `bloomFilter.falsePositiveRate()` of src/BloomFilter.js:
`(bitArray.count() / bitArray.bits) ** k`, rounded to 3 decimal digits. -/
noncomputable def BloomFilter.falsePositiveRate (bf : BloomFilter) : ℝ :=
  round3 (((bf.bitArray.count true : ℝ) / (bf.bitArray.length : ℝ)) ^ bf.k)

/-- The filter's hash instances are in their freshly seeded state (holds at
construction and is restored by every operation). -/
def Seeded (bf : BloomFilter) : Prop :=
  bf.hashOne = MurMur.init seedOne ∧ bf.hashTwo = MurMur.init seedTwo

instance (bf : BloomFilter) : Decidable (Seeded bf) := by
  unfold Seeded; infer_instance

/-- Structural invariant: seeded hash instances and a bit array of the
declared length. -/
def WF (bf : BloomFilter) : Prop :=
  Seeded bf ∧ bf.bitArray.length = bf.bits

instance (bf : BloomFilter) : Decidable (WF bf) := by
  unfold WF; infer_instance

/-- The pure index sequence of a key for given dimensions. -/
def idxList (H : Nat → String → Nat) (bits k : Nat) (key : String) : List Nat :=
  (List.range k).map (fun i => (H seedOne key + i * H seedTwo key) % bits)

/-- State of the variant `BloomFilter` class of src/index.js (field `size`
instead of `bits`, counter `count` instead of `inserts`). -/
structure BloomFilterV where
  size : Nat
  k : Nat
  bitArray : List Bool
  hashOne : MurMur
  hashTwo : MurMur
  count : Nat
deriving DecidableEq

/-- `calculateBitIndices` of the src/index.js variant (identical algorithm,
modulo the `size` field name). -/
def calculateBitIndicesV (H : Nat → String → Nat) (v : BloomFilterV) (key : String) :
    List Nat × BloomFilterV :=
  let h1m := v.hashOne.hash key
  let hash1 := h1m.result H
  let h2m := v.hashTwo.hash key
  let hash2 := h2m.result H
  let kHashes := (List.range v.k).map (fun i => (hash1 + i * hash2) % v.size)
  (kHashes, { v with hashOne := h1m.reset seedOne, hashTwo := h2m.reset seedTwo })

/-- One iteration of the variant `add` loop: test the current bit (counting
it when already set), then set it. -/
def addVStep (s : List Bool × Nat) (i : Nat) : List Bool × Nat :=
  (s.1.set i true, if s.1.getD i false then s.2 + 1 else s.2)

/-- The loop of the variant `add`: per index, first test the current bit
(counting the already-set ones), then set it. -/
def setBitsCount (arr : List Bool) (idx : List Nat) : List Bool × Nat :=
  idx.foldl addVStep (arr, 0)

/-- `bloomFilter.add(key)` of src/index.js: sets the computed indices,
counting how many were already set; increments `count` only when
`numAlreadySet < indices.length`. -/
def BloomFilterV.add (H : Nat → String → Nat) (v : BloomFilterV) (key : String) : BloomFilterV :=
  let p := calculateBitIndicesV H v key
  let st := setBitsCount p.2.bitArray p.1
  { p.2 with
    bitArray := st.1,
    count := if st.2 < p.1.length then p.2.count + 1 else p.2.count }

/-- The variant filter's hash instances are freshly seeded. -/
def SeededV (v : BloomFilterV) : Prop :=
  v.hashOne = MurMur.init seedOne ∧ v.hashTwo = MurMur.init seedTwo

instance (v : BloomFilterV) : Decidable (SeededV v) := by
  unfold SeededV; infer_instance

/-- `SafeBloomFilter.estimateNumberBits(expectedInserts, falsePositiveRate)`
of src/SafeBloomFilter.js: returns 0 for `expectedInserts <= 0`, throws for
a rate outside `[0, 1]`, otherwise
`ceil(-expectedInserts * ln(rate) / (ln 2)^2)`. -/
noncomputable def estimateNumberBits (expectedInserts : ℤ) (falsePositiveRate : ℝ) :
    Except String ℤ :=
  if expectedInserts ≤ 0 then Except.ok 0
  else if falsePositiveRate < 0 ∨ 1 < falsePositiveRate then
    Except.error "Invalid false positive rate"
  else
    Except.ok ⌈(-(expectedInserts : ℝ) * Real.log falsePositiveRate) / (Real.log 2) ^ 2⌉

/-- A JavaScript number as it occurs in `optimalNumHashFunctions`: a finite
value (modelled exactly over the reals) or one of the IEEE special values
that division by zero introduces. -/
inductive JsNum where
  | val (x : ℝ)
  | posInf
  | negInf
  | nan

/-- IEEE division `a / b` of finite operands: the quotient when `b` is not
zero; for `b = 0` a signed infinity, or NaN for `0 / 0`. -/
noncomputable def jsDiv (a b : ℝ) : JsNum :=
  if b = 0 then
    (if 0 < a then JsNum.posInf else if a < 0 then JsNum.negInf else JsNum.nan)
  else JsNum.val (a / b)

/-- Multiplication by the positive finite constant `Math.LN2`: scales a
finite value, preserves the signed infinities and NaN. -/
noncomputable def JsNum.mulLn2 : JsNum → JsNum
  | JsNum.val x => JsNum.val (x * Real.log 2)
  | JsNum.posInf => JsNum.posInf
  | JsNum.negInf => JsNum.negInf
  | JsNum.nan => JsNum.nan

/-- The comparison `optimal > 1`: true on `Infinity`, false on `-Infinity`
and on NaN (every IEEE comparison against NaN is false). -/
def JsNum.gtOne : JsNum → Prop
  | JsNum.val x => 1 < x
  | JsNum.posInf => True
  | JsNum.negInf => False
  | JsNum.nan => False

noncomputable instance (v : JsNum) : Decidable v.gtOne := by
  cases v <;> simp only [JsNum.gtOne] <;> infer_instance

/-- `Math.ceil`: the ceiling on finite values; `Math.ceil(Infinity)` is
`Infinity`, and likewise for `-Infinity` and NaN. -/
noncomputable def JsNum.ceil : JsNum → JsNum
  | JsNum.val x => JsNum.val ((⌈x⌉ : ℤ) : ℝ)
  | JsNum.posInf => JsNum.posInf
  | JsNum.negInf => JsNum.negInf
  | JsNum.nan => JsNum.nan

/-- Reading a finite integer-valued number back as a `Nat` (the only values
the `SafeBloomFilter` constructor ever passes on to the base filter). -/
noncomputable def JsNum.toNat : JsNum → Nat
  | JsNum.val x => ⌊x⌋.toNat
  | _ => 0

/-- `SafeBloomFilter.optimalNumHashFunctions(expectedInserts, bits)` of
src/SafeBloomFilter.js: computes
`optimal = (bits / expectedInserts) * Math.LN2` and returns
`Math.ceil(optimal)` when `optimal > 1`, else the minimum 1. A division by
zero (`expectedInserts = 0`) follows IEEE semantics, so `optimal` can be
`Infinity`, `-Infinity` or NaN, and for `bits > 0` the function returns
`Infinity`. -/
noncomputable def optimalNumHashFunctions (expectedInserts bits : ℤ) : JsNum :=
  let optimal := (jsDiv (bits : ℝ) (expectedInserts : ℝ)).mulLn2
  if optimal.gtOne then optimal.ceil else JsNum.val 1

/-- On a non-zero `expectedInserts` the computation is the finite
real-arithmetic branch of the source. -/
theorem optimalNumHashFunctions_of_ne (n bits : ℤ) (hn : n ≠ 0) :
    optimalNumHashFunctions n bits =
      if 1 < ((bits : ℝ) / (n : ℝ)) * Real.log 2
      then JsNum.val ((⌈((bits : ℝ) / (n : ℝ)) * Real.log 2⌉ : ℤ) : ℝ)
      else JsNum.val 1 := by
  have hd : jsDiv (bits : ℝ) (n : ℝ) = JsNum.val ((bits : ℝ) / (n : ℝ)) := by
    rw [jsDiv, if_neg (by exact_mod_cast hn)]
  rw [optimalNumHashFunctions]
  simp only [hd, JsNum.mulLn2, JsNum.gtOne, JsNum.ceil]

/-- With `expectedInserts = 0` and `bits > 0` the division yields
`Infinity`, the `optimal > 1` branch is taken, and `Math.ceil(Infinity)`
(`Infinity`) is returned. -/
theorem optimalNumHashFunctions_posInf (bits : ℤ) (hb : 0 < bits) :
    optimalNumHashFunctions 0 bits = JsNum.posInf := by
  have hd : jsDiv (bits : ℝ) (((0 : ℤ)) : ℝ) = JsNum.posInf := by
    rw [jsDiv, if_pos (by norm_num), if_pos (by exact_mod_cast hb)]
  rw [optimalNumHashFunctions]
  simp only [hd, JsNum.mulLn2, JsNum.gtOne, JsNum.ceil]
  rw [if_pos trivial]

/-- With `expectedInserts = 0` and `bits <= 0` the division yields
`-Infinity` or NaN, the comparison is false, and the minimum 1 is
returned. -/
theorem optimalNumHashFunctions_zero_nonpos (bits : ℤ) (hb : bits ≤ 0) :
    optimalNumHashFunctions 0 bits = JsNum.val 1 := by
  by_cases h0 : bits = 0
  · subst h0
    have hd : jsDiv (((0 : ℤ)) : ℝ) (((0 : ℤ)) : ℝ) = JsNum.nan := by
      rw [jsDiv, if_pos (by norm_num), if_neg (by norm_num), if_neg (by norm_num)]
    rw [optimalNumHashFunctions]
    simp only [hd, JsNum.mulLn2, JsNum.gtOne, JsNum.ceil]
    rw [if_neg not_false]
  · have hd : jsDiv ((bits : ℤ) : ℝ) (((0 : ℤ)) : ℝ) = JsNum.negInf := by
      rw [jsDiv, if_pos (by norm_num), if_neg (by exact_mod_cast not_lt.mpr hb),
        if_pos (by exact_mod_cast lt_of_le_of_ne hb h0)]
    rw [optimalNumHashFunctions]
    simp only [hd, JsNum.mulLn2, JsNum.gtOne, JsNum.ceil]
    rw [if_neg not_false]

/-- For every non-positive `expectedInserts` the pair fed in by the
`SafeBloomFilter` constructor (`bits = 0`) yields the minimum 1. -/
theorem optimalNumHashFunctions_nonpos_zero (n : ℤ) (hn : n ≤ 0) :
    optimalNumHashFunctions n 0 = JsNum.val 1 := by
  by_cases h0 : n = 0
  · subst h0
    exact optimalNumHashFunctions_zero_nonpos 0 le_rfl
  · rw [optimalNumHashFunctions_of_ne n 0 h0]
    rw [if_neg (by rw [Int.cast_zero, zero_div, zero_mul]; norm_num)]

/-- State of `SafeBloomFilter`: the underlying filter plus the immutable
`capacity`. -/
structure SafeBloomFilter extends BloomFilter where
  capacity : ℤ

/-- `new SafeBloomFilter(expectedInserts, falsePositiveRate)`: derives the
bit count and hash count from the static estimators, builds the base filter
with them, and stores `capacity = expectedInserts`. Propagates the
estimator's error. -/
noncomputable def SafeBloomFilter.init (expectedInserts : ℤ) (falsePositiveRate : ℝ) :
    Except String SafeBloomFilter :=
  (estimateNumberBits expectedInserts falsePositiveRate).map (fun bits =>
    { toBloomFilter :=
        BloomFilter.init bits.toNat (optimalNumHashFunctions expectedInserts bits).toNat,
      capacity := expectedInserts })

/-- `safeBloomFilter.add(key)` of src/SafeBloomFilter.js: when
`inserts < capacity`, sets the computed indices and increments `inserts`;
otherwise throws and changes nothing. -/
def SafeBloomFilter.add (H : Nat → String → Nat) (s : SafeBloomFilter) (key : String) :
    Except String SafeBloomFilter :=
  if (s.inserts : ℤ) < s.capacity then
    let p := calculateBitIndices H s.toBloomFilter key
    let bf := { p.2 with bitArray := setBits p.2.bitArray p.1, inserts := p.2.inserts + 1 }
    Except.ok { toBloomFilter := bf, capacity := s.capacity }
  else Except.error "Filter at capacity"

/-- Folding a sequence of safe `add` operations, stopping at the first error. -/
def SafeBloomFilter.addAll (H : Nat → String → Nat) (s : SafeBloomFilter)
    (keys : List String) : Except String SafeBloomFilter :=
  keys.foldl (fun acc key => acc.bind (fun t => SafeBloomFilter.add H t key)) (Except.ok s)

/-! ### Helper lemmas -/

theorem getD_set_true (arr : List Bool) (i j : Nat) (h : arr.getD j false = true) :
    (arr.set i true).getD j false = true := by
  rw [List.getD_eq_getElem?_getD] at h ⊢
  rw [List.getElem?_set]
  by_cases hij : i = j
  · subst hij
    by_cases hl : i < arr.length
    · simp [hl]
    · rw [List.getElem?_eq_none (by omega)] at h
      simp at h
  · simp [hij, h]

theorem getD_set_self_true (arr : List Bool) (i : Nat) (h : i < arr.length) :
    (arr.set i true).getD i false = true := by
  rw [List.getD_eq_getElem?_getD, List.getElem?_set_self h]
  rfl

theorem setBits_nil (arr : List Bool) : setBits arr [] = arr := rfl

theorem setBits_cons (arr : List Bool) (j : Nat) (rest : List Nat) :
    setBits arr (j :: rest) = setBits (arr.set j true) rest := rfl

theorem setBits_length (idx : List Nat) (arr : List Bool) :
    (setBits arr idx).length = arr.length := by
  induction idx generalizing arr with
  | nil => rfl
  | cons j rest ih =>
      rw [setBits_cons, ih (arr.set j true), List.length_set]

theorem setBits_preserves_true (idx : List Nat) (arr : List Bool) (i : Nat)
    (h : arr.getD i false = true) : (setBits arr idx).getD i false = true := by
  induction idx generalizing arr with
  | nil => exact h
  | cons j rest ih =>
      rw [setBits_cons]
      exact ih (arr.set j true) (getD_set_true arr j i h)

theorem setBits_sets (idx : List Nat) (arr : List Bool) (i : Nat)
    (hmem : i ∈ idx) (hlt : i < arr.length) : (setBits arr idx).getD i false = true := by
  induction idx generalizing arr with
  | nil => cases hmem
  | cons j rest ih =>
      rw [setBits_cons]
      rcases List.mem_cons.mp hmem with hj | hr
      · subst hj
        exact setBits_preserves_true rest (arr.set i true) i (getD_set_self_true arr i hlt)
      · exact ih (arr.set j true) hr (by rw [List.length_set]; exact hlt)

theorem count_le_count_set_true (arr : List Bool) (i : Nat) :
    arr.count true ≤ (arr.set i true).count true := by
  by_cases hl : i < arr.length
  · rw [List.count_set true true arr i hl]
    by_cases hb : arr[i] = true
    · have hm : true ∈ arr := hb ▸ List.getElem_mem hl
      have hc : 1 ≤ arr.count true := List.count_pos_iff.mpr hm
      simp only [hb]
      simp
      omega
    · simp [hb]
  · rw [List.set_eq_of_length_le (by omega)]

theorem count_le_setBits_count (idx : List Nat) (arr : List Bool) :
    arr.count true ≤ (setBits arr idx).count true := by
  induction idx generalizing arr with
  | nil => exact le_rfl
  | cons j rest ih =>
      rw [setBits_cons]
      exact le_trans (count_le_count_set_true arr j) (ih (arr.set j true))

theorem idxList_length (H : Nat → String → Nat) (bits k : Nat) (key : String) :
    (idxList H bits k key).length = k := by
  simp [idxList]

theorem idxList_getD (H : Nat → String → Nat) (bits k : Nat) (key : String) (i : Nat)
    (h : i < k) :
    (idxList H bits k key).getD i 0 = (H seedOne key + i * H seedTwo key) % bits := by
  rw [idxList, List.getD_eq_getElem?_getD]
  rw [List.getElem?_map, List.getElem?_range h]
  rfl

theorem idxList_mem_lt (H : Nat → String → Nat) (bits k : Nat) (key : String)
    (hbits : 0 < bits) (x : Nat) (hx : x ∈ idxList H bits k key) : x < bits := by
  rw [idxList] at hx
  rcases List.mem_map.mp hx with ⟨i, _, rfl⟩
  exact Nat.mod_lt _ hbits

theorem calculateBitIndices_fst (H : Nat → String → Nat) (bf : BloomFilter) (key : String)
    (h : Seeded bf) :
    (calculateBitIndices H bf key).1 = idxList H bf.bits bf.k key := by
  rcases h with ⟨h1, h2⟩
  simp [calculateBitIndices, idxList, MurMur.hash, MurMur.result, MurMur.init, h1, h2]

theorem calculateBitIndices_snd (H : Nat → String → Nat) (bf : BloomFilter) (key : String)
    (h : Seeded bf) : (calculateBitIndices H bf key).2 = bf := by
  rcases h with ⟨h1, h2⟩
  cases bf
  simp_all [calculateBitIndices, MurMur.reset, MurMur.init]

theorem add_eq (H : Nat → String → Nat) (bf : BloomFilter) (key : String) (h : Seeded bf) :
    BloomFilter.add H bf key =
      { bf with bitArray := setBits bf.bitArray (idxList H bf.bits bf.k key),
                inserts := bf.inserts + 1 } := by
  rw [BloomFilter.add]
  rw [calculateBitIndices_snd H bf key h, calculateBitIndices_fst H bf key h]

theorem contains_eq (H : Nat → String → Nat) (bf : BloomFilter) (key : String) (h : Seeded bf) :
    BloomFilter.contains H bf key =
      ((idxList H bf.bits bf.k key).all (fun i => bf.bitArray.getD i false), bf) := by
  rw [BloomFilter.contains]
  rw [calculateBitIndices_snd H bf key h, calculateBitIndices_fst H bf key h]

theorem add_seeded (H : Nat → String → Nat) (bf : BloomFilter) (key : String) :
    Seeded (BloomFilter.add H bf key) := by
  constructor <;> rfl

theorem add_bits (H : Nat → String → Nat) (bf : BloomFilter) (key : String) :
    (BloomFilter.add H bf key).bits = bf.bits := rfl

theorem add_k (H : Nat → String → Nat) (bf : BloomFilter) (key : String) :
    (BloomFilter.add H bf key).k = bf.k := rfl

theorem add_length (H : Nat → String → Nat) (bf : BloomFilter) (key : String) :
    (BloomFilter.add H bf key).bitArray.length = bf.bitArray.length := by
  rw [BloomFilter.add]
  simp only [setBits_length]
  rfl

theorem add_wf (H : Nat → String → Nat) (bf : BloomFilter) (key : String) (h : WF bf) :
    WF (BloomFilter.add H bf key) := by
  refine ⟨add_seeded H bf key, ?_⟩
  rw [add_length, add_bits]
  exact h.2

theorem calculateBitIndices_snd_bitArray (H : Nat → String → Nat) (bf : BloomFilter)
    (key : String) : (calculateBitIndices H bf key).2.bitArray = bf.bitArray := rfl

theorem add_preserves_true (H : Nat → String → Nat) (bf : BloomFilter) (key : String)
    (i : Nat) (h : bf.bitArray.getD i false = true) :
    (BloomFilter.add H bf key).bitArray.getD i false = true := by
  rw [BloomFilter.add]
  exact setBits_preserves_true _ _ _ (by
    rw [calculateBitIndices_snd_bitArray]
    exact h)

theorem addAll_nil (H : Nat → String → Nat) (bf : BloomFilter) : addAll H bf [] = bf := rfl

theorem addAll_cons (H : Nat → String → Nat) (bf : BloomFilter) (key : String)
    (keys : List String) :
    addAll H bf (key :: keys) = addAll H (BloomFilter.add H bf key) keys := rfl

theorem addAll_bits (H : Nat → String → Nat) (bf : BloomFilter) (keys : List String) :
    (addAll H bf keys).bits = bf.bits := by
  induction keys generalizing bf with
  | nil => rfl
  | cons key keys ih => rw [addAll_cons, ih, add_bits]

theorem addAll_k (H : Nat → String → Nat) (bf : BloomFilter) (keys : List String) :
    (addAll H bf keys).k = bf.k := by
  induction keys generalizing bf with
  | nil => rfl
  | cons key keys ih => rw [addAll_cons, ih, add_k]

theorem addAll_length (H : Nat → String → Nat) (bf : BloomFilter) (keys : List String) :
    (addAll H bf keys).bitArray.length = bf.bitArray.length := by
  induction keys generalizing bf with
  | nil => rfl
  | cons key keys ih => rw [addAll_cons, ih, add_length]

theorem addAll_seeded (H : Nat → String → Nat) (bf : BloomFilter) (keys : List String)
    (h : Seeded bf) : Seeded (addAll H bf keys) := by
  induction keys generalizing bf with
  | nil => exact h
  | cons key keys ih => rw [addAll_cons]; exact ih _ (add_seeded H bf key)

theorem addAll_preserves_true (H : Nat → String → Nat) (bf : BloomFilter)
    (keys : List String) (i : Nat) (h : bf.bitArray.getD i false = true) :
    (addAll H bf keys).bitArray.getD i false = true := by
  induction keys generalizing bf with
  | nil => exact h
  | cons key keys ih =>
      rw [addAll_cons]
      exact ih _ (add_preserves_true H bf key i h)

/-! ### Claim theorems -/

/-- C1. No false negatives: for every key `key` and every well-formed
`BloomFilter` with `bits > 0` and `k >= 1`, once `add key` has been called,
`contains key` returns true, and it continues to return true after any
further sequence of `add` operations (bits are set to 1 and never
cleared). -/
theorem c1_no_false_negatives (H : Nat → String → Nat) (bf : BloomFilter) (key : String)
    (hwf : WF bf) (hbits : 0 < bf.bits) (_hk : 1 ≤ bf.k) (keys : List String) :
    (BloomFilter.contains H (addAll H (BloomFilter.add H bf key) keys) key).1 = true := by
  set bf1 := BloomFilter.add H bf key with hbf1
  have hseed1 : Seeded bf1 := add_seeded H bf key
  have hset : ∀ i ∈ idxList H bf.bits bf.k key, bf1.bitArray.getD i false = true := by
    intro i hi
    rw [hbf1, add_eq H bf key hwf.1]
    exact setBits_sets _ _ _ hi (by rw [hwf.2]; exact idxList_mem_lt H _ _ key hbits i hi)
  set bfF := addAll H bf1 keys with hbfF
  have hseedF : Seeded bfF := addAll_seeded H bf1 keys hseed1
  have hbitsF : bfF.bits = bf.bits := by rw [hbfF, addAll_bits, hbf1, add_bits]
  have hkF : bfF.k = bf.k := by rw [hbfF, addAll_k, hbf1, add_k]
  have hsetF : ∀ i ∈ idxList H bf.bits bf.k key, bfF.bitArray.getD i false = true := by
    intro i hi
    exact addAll_preserves_true H bf1 keys i (hset i hi)
  rw [contains_eq H bfF key hseedF, hbitsF, hkF]
  simp only [List.all_eq_true, decide_eq_true_eq]
  intro i hi
  exact hsetF i hi

/-- Witness for C1 at a concrete filter, key and hash function. -/
theorem c1_witness :
    WF (BloomFilter.init 2 1) ∧ 0 < (BloomFilter.init 2 1).bits ∧ 1 ≤ (BloomFilter.init 2 1).k ∧
      (BloomFilter.contains (fun s _ => s)
        (addAll (fun s _ => s) (BloomFilter.add (fun s _ => s) (BloomFilter.init 2 1) "a") ["b"])
        "a").1 = true :=
  ⟨by decide, by decide, by decide,
    c1_no_false_negatives (fun s _ => s) (BloomFilter.init 2 1) "a" (by decide) (by decide)
      (by decide) ["b"]⟩

/-- C3. Index derivation: for every key and every seeded `BloomFilter` with
`bits > 0` and `k >= 1`, `calculateBitIndices key` returns exactly `k`
entries, the `i`-th entry equals `(h1 + i * h2) mod bits` for the two seeded
base hashes `h1`, `h2` of the key, and every entry lies in `[0, bits)`. -/
theorem c3_index_derivation (H : Nat → String → Nat) (bf : BloomFilter) (key : String)
    (hseed : Seeded bf) (hbits : 0 < bf.bits) (_hk : 1 ≤ bf.k) :
    (calculateBitIndices H bf key).1.length = bf.k ∧
    (∀ i, i < bf.k → (calculateBitIndices H bf key).1.getD i 0 =
        (H seedOne key + i * H seedTwo key) % bf.bits) ∧
    (∀ x ∈ (calculateBitIndices H bf key).1, x < bf.bits) := by
  rw [calculateBitIndices_fst H bf key hseed]
  refine ⟨idxList_length H bf.bits bf.k key, ?_, ?_⟩
  · intro i hi
    exact idxList_getD H bf.bits bf.k key i hi
  · intro x hx
    exact idxList_mem_lt H bf.bits bf.k key hbits x hx

/-- Witness for C3 at a concrete filter, key and hash function. -/
theorem c3_witness :
    Seeded (BloomFilter.init 5 3) ∧ 0 < (BloomFilter.init 5 3).bits ∧
      1 ≤ (BloomFilter.init 5 3).k ∧
      ((calculateBitIndices (fun s t => s + t.length) (BloomFilter.init 5 3) "ab").1.length =
        (BloomFilter.init 5 3).k ∧
      (∀ i, i < (BloomFilter.init 5 3).k →
        (calculateBitIndices (fun s t => s + t.length) (BloomFilter.init 5 3) "ab").1.getD i 0 =
          ((fun s t => s + t.length) seedOne "ab" +
            i * (fun s t => s + t.length) seedTwo "ab") % (BloomFilter.init 5 3).bits) ∧
      (∀ x ∈ (calculateBitIndices (fun s t => s + t.length) (BloomFilter.init 5 3) "ab").1,
        x < (BloomFilter.init 5 3).bits)) :=
  ⟨by decide, by decide, by decide,
    c3_index_derivation (fun s t => s + t.length) (BloomFilter.init 5 3) "ab" (by decide)
      (by decide) (by decide)⟩

/-- C6. Purity and determinism of querying: `calculateBitIndices` and
`contains` leave the filter state unchanged (bit array, insert counter, and
hash instances restored), and for fixed `bits`, `k` and key, the index
sequence is identical on every call, in particular after any earlier `add`
operations on the same instance. -/
theorem c6_purity_determinism (H : Nat → String → Nat) (bf : BloomFilter) (key : String)
    (hseed : Seeded bf) :
    (calculateBitIndices H bf key).2 = bf ∧
    (BloomFilter.contains H bf key).2 = bf ∧
    (∀ bf2, Seeded bf2 → bf2.bits = bf.bits → bf2.k = bf.k →
      (calculateBitIndices H bf2 key).1 = (calculateBitIndices H bf key).1) ∧
    (∀ keys, (calculateBitIndices H (addAll H bf keys) key).1 =
      (calculateBitIndices H bf key).1) := by
  have hdet : ∀ bf2, Seeded bf2 → bf2.bits = bf.bits → bf2.k = bf.k →
      (calculateBitIndices H bf2 key).1 = (calculateBitIndices H bf key).1 := by
    intro bf2 hs2 hb2 hk2
    rw [calculateBitIndices_fst H bf2 key hs2, calculateBitIndices_fst H bf key hseed,
      hb2, hk2]
  refine ⟨calculateBitIndices_snd H bf key hseed, ?_, hdet, ?_⟩
  · rw [BloomFilter.contains]
    exact calculateBitIndices_snd H bf key hseed
  · intro keys
    exact hdet (addAll H bf keys) (addAll_seeded H bf keys hseed)
      (addAll_bits H bf keys) (addAll_k H bf keys)

/-- Witness for C6 at a concrete filter, key and hash function. -/
theorem c6_witness :
    Seeded (BloomFilter.init 4 2) ∧
      ((calculateBitIndices (fun s _ => s) (BloomFilter.init 4 2) "x").2 =
        BloomFilter.init 4 2 ∧
      (BloomFilter.contains (fun s _ => s) (BloomFilter.init 4 2) "x").2 =
        BloomFilter.init 4 2 ∧
      (∀ bf2, Seeded bf2 → bf2.bits = (BloomFilter.init 4 2).bits →
        bf2.k = (BloomFilter.init 4 2).k →
        (calculateBitIndices (fun s _ => s) bf2 "x").1 =
          (calculateBitIndices (fun s _ => s) (BloomFilter.init 4 2) "x").1) ∧
      (∀ keys, (calculateBitIndices (fun s _ => s) (addAll (fun s _ => s)
          (BloomFilter.init 4 2) keys) "x").1 =
        (calculateBitIndices (fun s _ => s) (BloomFilter.init 4 2) "x").1)) :=
  ⟨by decide, c6_purity_determinism (fun s _ => s) (BloomFilter.init 4 2) "x" (by decide)⟩

theorem round3_mono {x y : ℝ} (h : x ≤ y) : round3 x ≤ round3 y := by
  rw [round3, round3]
  have hf : (⌊x * 1000 + 1 / 2⌋ : ℤ) ≤ ⌊y * 1000 + 1 / 2⌋ := by
    apply Int.floor_mono
    nlinarith
  have : ((⌊x * 1000 + 1 / 2⌋ : ℤ) : ℝ) ≤ ((⌊y * 1000 + 1 / 2⌋ : ℤ) : ℝ) := by
    exact_mod_cast hf
  linarith

theorem round3_nonneg {x : ℝ} (h : 0 ≤ x) : 0 ≤ round3 x := by
  rw [round3]
  have hf : (0 : ℤ) ≤ ⌊x * 1000 + 1 / 2⌋ := by
    rw [Int.le_floor]
    push_cast
    nlinarith
  have : (0 : ℝ) ≤ ((⌊x * 1000 + 1 / 2⌋ : ℤ) : ℝ) := by exact_mod_cast hf
  linarith

theorem round3_le_one {x : ℝ} (h : x ≤ 1) : round3 x ≤ 1 := by
  rw [round3]
  have hf : (⌊x * 1000 + 1 / 2⌋ : ℤ) ≤ 1000 := by
    rw [Int.floor_le_iff]
    push_cast
    nlinarith
  have : ((⌊x * 1000 + 1 / 2⌋ : ℤ) : ℝ) ≤ 1000 := by exact_mod_cast hf
  linarith

theorem add_count_le (H : Nat → String → Nat) (bf : BloomFilter) (key : String) :
    bf.bitArray.count true ≤ (BloomFilter.add H bf key).bitArray.count true := by
  rw [BloomFilter.add]
  exact count_le_setBits_count _ _

theorem addAll_count_le (H : Nat → String → Nat) (bf : BloomFilter) (keys : List String) :
    bf.bitArray.count true ≤ (addAll H bf keys).bitArray.count true := by
  induction keys generalizing bf with
  | nil => exact le_rfl
  | cons key keys ih =>
      rw [addAll_cons]
      exact le_trans (add_count_le H bf key) (ih _)

theorem rate_nonneg (c m : Nat) (k : Nat) : 0 ≤ ((c : ℝ) / (m : ℝ)) ^ k :=
  pow_nonneg (div_nonneg (Nat.cast_nonneg c) (Nat.cast_nonneg m)) k

theorem rate_le_one (c m : Nat) (k : Nat) (hc : c ≤ m) (hm : 0 < m) :
    ((c : ℝ) / (m : ℝ)) ^ k ≤ 1 := by
  apply pow_le_one₀ (div_nonneg (Nat.cast_nonneg c) (Nat.cast_nonneg m))
  rw [div_le_one (by exact_mod_cast hm)]
  exact_mod_cast hc

/-- C7. Monotonic fill: for every well-formed `BloomFilter` with `bits > 0`
and `k >= 1`, `falsePositiveRate` equals
`(number of set bits / bits) ^ k` rounded to 3 decimal digits, lies in
`[0, 1]`, and is non-decreasing across any sequence of `add` operations. -/
theorem c7_monotonic_fill (H : Nat → String → Nat) (bf : BloomFilter) (hwf : WF bf)
    (hbits : 0 < bf.bits) (_hk : 1 ≤ bf.k) :
    bf.falsePositiveRate =
      round3 (((bf.bitArray.count true : ℝ) / (bf.bits : ℝ)) ^ bf.k) ∧
    0 ≤ bf.falsePositiveRate ∧ bf.falsePositiveRate ≤ 1 ∧
    (∀ keys, bf.falsePositiveRate ≤ (addAll H bf keys).falsePositiveRate) := by
  have hlen : bf.bitArray.length = bf.bits := hwf.2
  refine ⟨by rw [BloomFilter.falsePositiveRate, hlen], ?_, ?_, ?_⟩
  · exact round3_nonneg (rate_nonneg _ _ _)
  · apply round3_le_one
    apply rate_le_one _ _ _ (List.count_le_length true bf.bitArray)
    rw [hlen]; exact hbits
  · intro keys
    rw [BloomFilter.falsePositiveRate, BloomFilter.falsePositiveRate]
    apply round3_mono
    rw [addAll_length, addAll_k]
    have hc : (bf.bitArray.count true : ℝ) ≤ ((addAll H bf keys).bitArray.count true : ℝ) := by
      exact_mod_cast addAll_count_le H bf keys
    have hm : (0 : ℝ) ≤ (bf.bitArray.length : ℝ) := Nat.cast_nonneg _
    gcongr

/-- Witness for C7 at a concrete filter and hash function. -/
theorem c7_witness :
    WF (BloomFilter.init 2 1) ∧ 0 < (BloomFilter.init 2 1).bits ∧
      1 ≤ (BloomFilter.init 2 1).k ∧
      ((BloomFilter.init 2 1).falsePositiveRate =
        round3 ((((BloomFilter.init 2 1).bitArray.count true : ℝ) /
          ((BloomFilter.init 2 1).bits : ℝ)) ^ (BloomFilter.init 2 1).k) ∧
      0 ≤ (BloomFilter.init 2 1).falsePositiveRate ∧
      (BloomFilter.init 2 1).falsePositiveRate ≤ 1 ∧
      (∀ keys, (BloomFilter.init 2 1).falsePositiveRate ≤
        (addAll (fun s _ => s) (BloomFilter.init 2 1) keys).falsePositiveRate)) :=
  ⟨by decide, by decide, by decide,
    c7_monotonic_fill (fun s _ => s) (BloomFilter.init 2 1) (by decide) (by decide) (by decide)⟩

theorem addVStep_mk (arr : List Bool) (n j : Nat) :
    addVStep (arr, n) j = (arr.set j true, if arr.getD j false then n + 1 else n) := rfl

theorem foldl_addVStep_fst (idx : List Nat) (arr : List Bool) (n : Nat) :
    (idx.foldl addVStep (arr, n)).1 = setBits arr idx := by
  induction idx generalizing arr n with
  | nil => rfl
  | cons j rest ih =>
      rw [List.foldl_cons, setBits_cons, addVStep_mk]
      by_cases hb : arr.getD j false
      · rw [if_pos hb]
        exact ih (arr.set j true) (n + 1)
      · rw [if_neg hb]
        exact ih (arr.set j true) n

theorem foldl_addVStep_shift (idx : List Nat) (arr : List Bool) (n : Nat) :
    (idx.foldl addVStep (arr, n)).2 = n + (idx.foldl addVStep (arr, 0)).2 := by
  induction idx generalizing arr n with
  | nil => simp
  | cons j rest ih =>
      rw [List.foldl_cons, List.foldl_cons, addVStep_mk, addVStep_mk]
      by_cases hb : arr.getD j false
      · rw [if_pos hb, if_pos hb, ih (arr.set j true) (n + 1), ih (arr.set j true) (0 + 1)]
        omega
      · rw [if_neg hb, if_neg hb, ih (arr.set j true) n]

theorem setBitsCount_fst (arr : List Bool) (idx : List Nat) :
    (setBitsCount arr idx).1 = setBits arr idx :=
  foldl_addVStep_fst idx arr 0

theorem setBitsCount_cons (arr : List Bool) (j : Nat) (rest : List Nat) :
    (setBitsCount arr (j :: rest)).2 =
      (if arr.getD j false then 1 else 0) + (setBitsCount (arr.set j true) rest).2 := by
  rw [setBitsCount, List.foldl_cons, addVStep_mk]
  by_cases hb : arr.getD j false
  · rw [if_pos hb]
    exact foldl_addVStep_shift rest (arr.set j true) (0 + 1)
  · rw [if_neg hb]
    exact (Nat.zero_add ((setBitsCount (arr.set j true) rest).2)).symm

theorem setBitsCount_le (idx : List Nat) (arr : List Bool) :
    (setBitsCount arr idx).2 ≤ idx.length := by
  induction idx generalizing arr with
  | nil => exact Nat.le_refl 0
  | cons j rest ih =>
      rw [setBitsCount_cons, List.length_cons]
      have hS := ih (arr.set j true)
      by_cases hb : arr.getD j false
      · rw [if_pos hb]
        omega
      · rw [if_neg hb]
        omega

theorem setBitsCount_eq_length_iff (idx : List Nat) (arr : List Bool)
    (hidx : ∀ i ∈ idx, i < arr.length) :
    (setBitsCount arr idx).2 = idx.length ↔ ∀ i ∈ idx, arr.getD i false = true := by
  induction idx generalizing arr with
  | nil => simp [setBitsCount]
  | cons j rest ih =>
      rw [setBitsCount_cons, List.length_cons]
      have hrest : ∀ i ∈ rest, i < (arr.set j true).length := by
        intro i hi
        rw [List.length_set]
        exact hidx i (List.mem_cons_of_mem j hi)
      have hle := setBitsCount_le rest (arr.set j true)
      have hiff := ih (arr.set j true) hrest
      constructor
      · intro heq i hi
        have hd : arr.getD j false = true := by
          by_contra hcon
          simp only [hcon, if_neg, Bool.false_eq_true, not_false_iff] at heq
          omega
        rcases List.mem_cons.mp hi with rfl | hr
        · exact hd
        · have hall : ∀ i ∈ rest, (arr.set j true).getD i false = true := by
            apply hiff.mp
            simp only [hd, if_pos] at heq
            omega
          have hsr := hall i hr
          by_cases hij : i = j
          · exact hij ▸ hd
          · rw [List.getD_eq_getElem?_getD, List.getElem?_set_ne (fun h => hij h.symm)] at hsr
            rw [List.getD_eq_getElem?_getD]
            exact hsr
      · intro hall
        have hd : arr.getD j false = true := hall j (List.mem_cons_self j rest)
        have hr : ∀ i ∈ rest, (arr.set j true).getD i false = true := by
          intro i hi
          by_cases hij : i = j
          · subst hij
            exact getD_set_self_true arr i (hidx i (List.mem_cons_self i rest))
          · rw [List.getD_eq_getElem?_getD, List.getElem?_set_ne (fun h => hij h.symm)]
            rw [← List.getD_eq_getElem?_getD]
            exact hall i (List.mem_cons_of_mem j hi)
        rw [hd, if_pos rfl, hiff.mpr hr]
        omega

theorem calculateBitIndicesV_fst (H : Nat → String → Nat) (v : BloomFilterV) (key : String)
    (h : SeededV v) :
    (calculateBitIndicesV H v key).1 = idxList H v.size v.k key := by
  rcases h with ⟨h1, h2⟩
  simp [calculateBitIndicesV, idxList, MurMur.hash, MurMur.result, MurMur.init, h1, h2]

theorem calculateBitIndicesV_snd_bitArray (H : Nat → String → Nat) (v : BloomFilterV)
    (key : String) : (calculateBitIndicesV H v key).2.bitArray = v.bitArray := rfl

/-- C9. Divergence of the two `add` variants: the `BloomFilter` of
src/BloomFilter.js increments its insert counter by 1 on every `add`,
unconditionally; the variant `BloomFilter` of src/index.js increments its
counter only when at least one indexed bit was previously unset; the two
`add` operations set the same bits, yet there is a concrete run on which the
two counters differ. -/
theorem c9_add_variants_divergence (H : Nat → String → Nat) :
    (∀ bf key, (BloomFilter.add H bf key).inserts = bf.inserts + 1) ∧
    (∀ v key, SeededV v → v.bitArray.length = v.size → 0 < v.size →
      (BloomFilterV.add H v key).count =
        if ∀ i ∈ idxList H v.size v.k key, v.bitArray.getD i false = true then v.count
        else v.count + 1) ∧
    (∀ bf v key, Seeded bf → SeededV v → bf.bits = v.size → bf.k = v.k →
      bf.bitArray = v.bitArray →
      (BloomFilter.add H bf key).bitArray = (BloomFilterV.add H v key).bitArray) ∧
    ((BloomFilter.add (fun s _ => s)
        (BloomFilter.add (fun s _ => s) (BloomFilter.init 1 1) "a") "a").inserts = 2 ∧
      (BloomFilterV.add (fun s _ => s)
        (BloomFilterV.add (fun s _ => s)
          ⟨1, 1, [false], MurMur.init seedOne, MurMur.init seedTwo, 0⟩ "a") "a").count = 1) := by
  refine ⟨fun bf key => rfl, ?_, ?_, by decide, by decide⟩
  · intro v key hseed hlen hpos
    have hproj : (BloomFilterV.add H v key).count =
        if (setBitsCount v.bitArray (idxList H v.size v.k key)).2 <
            (idxList H v.size v.k key).length then v.count + 1 else v.count := by
      rw [BloomFilterV.add]
      simp only [calculateBitIndicesV_fst H v key hseed]
      rfl
    rw [hproj]
    have hidx : ∀ i ∈ idxList H v.size v.k key, i < v.bitArray.length := by
      intro i hi
      rw [hlen]
      exact idxList_mem_lt H v.size v.k key hpos i hi
    have hle := setBitsCount_le (idxList H v.size v.k key) v.bitArray
    have hiff := setBitsCount_eq_length_iff (idxList H v.size v.k key) v.bitArray hidx
    by_cases hall : ∀ i ∈ idxList H v.size v.k key, v.bitArray.getD i false = true
    · have heq := hiff.mpr hall
      rw [if_neg (by omega), if_pos hall]
    · have hne : (setBitsCount v.bitArray (idxList H v.size v.k key)).2 ≠
          (idxList H v.size v.k key).length := fun h => hall (hiff.mp h)
      have hlt : (setBitsCount v.bitArray (idxList H v.size v.k key)).2 <
          (idxList H v.size v.k key).length := by omega
      rw [if_pos hlt, if_neg hall]
  · intro bf v key hs hsv hbits hk harr
    have hL : (BloomFilter.add H bf key).bitArray =
        setBits bf.bitArray (idxList H bf.bits bf.k key) := by
      rw [BloomFilter.add]
      rw [calculateBitIndices_fst H bf key hs]
      rfl
    have hR : (BloomFilterV.add H v key).bitArray =
        setBits v.bitArray (idxList H v.size v.k key) := by
      rw [BloomFilterV.add]
      simp only [calculateBitIndicesV_fst H v key hsv]
      rw [← setBitsCount_fst]
      rfl
    rw [hL, hR, harr, hbits, hk]

/-- Witness for C9 at a concrete hash function (the theorem quantifies over
the murmur core `H` and carries hypotheses inside the conjuncts). -/
theorem c9_witness :
    (BloomFilter.add (fun s _ => s) (BloomFilter.init 3 2) "a").inserts =
        (BloomFilter.init 3 2).inserts + 1 ∧
      (BloomFilterV.add (fun s _ => s)
          ⟨3, 2, [false, false, false], MurMur.init seedOne, MurMur.init seedTwo, 0⟩
          "a").count =
        if ∀ i ∈ idxList (fun s _ => s) 3 2 "a",
            ([false, false, false] : List Bool).getD i false = true then 0 else 0 + 1 :=
  ⟨((c9_add_variants_divergence (fun s _ => s)).1 (BloomFilter.init 3 2) "a"),
    ((c9_add_variants_divergence (fun s _ => s)).2.1
      ⟨3, 2, [false, false, false], MurMur.init seedOne, MurMur.init seedTwo, 0⟩ "a"
      (by decide) (by decide) (by decide))⟩

theorem safe_addAll_nil (H : Nat → String → Nat) (s : SafeBloomFilter) :
    SafeBloomFilter.addAll H s [] = Except.ok s := rfl

theorem safe_addAll_cons_ok (H : Nat → String → Nat) (s t : SafeBloomFilter) (key : String)
    (keys : List String) (h : SafeBloomFilter.add H s key = Except.ok t) :
    SafeBloomFilter.addAll H s (key :: keys) = SafeBloomFilter.addAll H t keys := by
  rw [SafeBloomFilter.addAll, SafeBloomFilter.addAll, List.foldl_cons]
  have hstep : (Except.ok s).bind (fun u => SafeBloomFilter.add H u key) = Except.ok t := h
  rw [hstep]

theorem safe_add_ok_of_lt (H : Nat → String → Nat) (s : SafeBloomFilter) (key : String)
    (h : (s.inserts : ℤ) < s.capacity) :
    ∃ t, SafeBloomFilter.add H s key = Except.ok t ∧ t.inserts = s.inserts + 1 ∧
      t.capacity = s.capacity := by
  have hadd : SafeBloomFilter.add H s key = Except.ok
      ⟨{ (calculateBitIndices H s.toBloomFilter key).2 with
         bitArray := setBits (calculateBitIndices H s.toBloomFilter key).2.bitArray
           (calculateBitIndices H s.toBloomFilter key).1,
         inserts := (calculateBitIndices H s.toBloomFilter key).2.inserts + 1 },
        s.capacity⟩ := by
    rw [SafeBloomFilter.add, if_pos h]
  exact ⟨_, hadd, rfl, rfl⟩

theorem safe_add_error_of_ge (H : Nat → String → Nat) (s : SafeBloomFilter) (key : String)
    (h : s.capacity ≤ (s.inserts : ℤ)) :
    SafeBloomFilter.add H s key = Except.error "Filter at capacity" := by
  rw [SafeBloomFilter.add, if_neg (by omega)]

theorem safe_addAll_fills (H : Nat → String → Nat) (keys : List String) :
    ∀ s : SafeBloomFilter, (s.inserts : ℤ) + keys.length ≤ s.capacity →
      ∃ t, SafeBloomFilter.addAll H s keys = Except.ok t ∧
        t.inserts = s.inserts + keys.length ∧ t.capacity = s.capacity := by
  induction keys with
  | nil =>
      intro s _
      exact ⟨s, rfl, by simp, rfl⟩
  | cons key keys ih =>
      intro s hs
      rw [List.length_cons] at hs
      have hlt : (s.inserts : ℤ) < s.capacity := by
        have hnn : (0 : ℤ) ≤ (keys.length : ℤ) := Int.natCast_nonneg _
        omega
      obtain ⟨t, ht, htins, htcap⟩ := safe_add_ok_of_lt H s key hlt
      obtain ⟨u, hu, huins, hucap⟩ := ih t (by
        rw [htins, htcap]
        push_cast
        push_cast at hs
        omega)
      refine ⟨u, ?_, ?_, by rw [hucap, htcap]⟩
      · rw [safe_addAll_cons_ok H s t key keys ht]
        exact hu
      · rw [huins, htins, List.length_cons]
        omega

/-- C2. Capacity enforcement with atomic failure: `add` succeeds whenever
`inserts < capacity` and increments `inserts` by 1; once `inserts` has
reached `capacity`, `add` fails with the capacity error and no state is
produced; any successful `add` leaves `inserts <= capacity`; and from a
fresh filter of capacity `n > 0`, any `n` keys are added successfully,
ending with `inserts = n`, after which every further `add` fails. -/
theorem c2_capacity_enforcement (H : Nat → String → Nat) :
    (∀ (s : SafeBloomFilter) (key : String), (s.inserts : ℤ) < s.capacity →
      ∃ t, SafeBloomFilter.add H s key = Except.ok t ∧ t.inserts = s.inserts + 1 ∧
        t.capacity = s.capacity) ∧
    (∀ (s : SafeBloomFilter) (key : String), s.capacity ≤ (s.inserts : ℤ) →
      SafeBloomFilter.add H s key = Except.error "Filter at capacity") ∧
    (∀ (s t : SafeBloomFilter) (key : String), SafeBloomFilter.add H s key = Except.ok t →
      (t.inserts : ℤ) ≤ t.capacity) ∧
    (∀ n : ℤ, 0 < n → ∀ s : SafeBloomFilter, s.capacity = n → s.inserts = 0 →
      ∀ keys : List String, (keys.length : ℤ) = n →
      ∃ t, SafeBloomFilter.addAll H s keys = Except.ok t ∧ (t.inserts : ℤ) = n ∧
        ∀ key2, SafeBloomFilter.add H t key2 = Except.error "Filter at capacity") := by
  refine ⟨safe_add_ok_of_lt H, safe_add_error_of_ge H, ?_, ?_⟩
  · intro s t key hok
    by_cases hlt : (s.inserts : ℤ) < s.capacity
    · obtain ⟨u, hu, huins, hucap⟩ := safe_add_ok_of_lt H s key hlt
      rw [hu] at hok
      injection hok with hok
      subst hok
      rw [huins, hucap]
      push_cast
      omega
    · rw [safe_add_error_of_ge H s key (by omega)] at hok
      cases hok
  · intro n hn s hcap hins keys hkeys
    obtain ⟨t, ht, htins, htcap⟩ := safe_addAll_fills H keys s (by omega)
    refine ⟨t, ht, ?_, ?_⟩
    · rw [htins, hins]
      omega
    · intro key2
      apply safe_add_error_of_ge
      rw [htcap, hcap, htins, hins]
      omega

/-- Witness for C2 at a concrete capacity-1 filter, keys and hash function. -/
theorem c2_witness :
    ((0 : ℤ) < 1 ∧ (([("a" : String)].length : ℤ) = 1) ∧
      ∃ t, SafeBloomFilter.addAll (fun s _ => s)
          ⟨BloomFilter.init 2 2, 1⟩ [("a" : String)] = Except.ok t ∧ (t.inserts : ℤ) = 1 ∧
        ∀ key2, SafeBloomFilter.add (fun s _ => s) t key2 =
          Except.error "Filter at capacity") :=
  ⟨by decide, by decide,
    (c2_capacity_enforcement (fun s _ => s)).2.2.2 1 (by decide)
      ⟨BloomFilter.init 2 2, 1⟩ rfl rfl [("a" : String)] (by decide)⟩

/-- C10. A `SafeBloomFilter` constructed with `expectedInserts <= 0` (any
rate, valid or not) is created without error with `bits = 0`, `k = 1`,
`capacity = expectedInserts` and `inserts = 0`, and every subsequent `add`
fails with the capacity error, because `inserts` (0) is never strictly
below `capacity`. -/
theorem c10_nonpositive_capacity (H : Nat → String → Nat) (n : ℤ) (hn : n ≤ 0) (p : ℝ) :
    ∃ s, SafeBloomFilter.init n p = Except.ok s ∧ s.bits = 0 ∧ s.k = 1 ∧
      s.capacity = n ∧ s.inserts = 0 ∧
      ∀ key, SafeBloomFilter.add H s key = Except.error "Filter at capacity" := by
  have hest : estimateNumberBits n p = Except.ok 0 := by
    rw [estimateNumberBits, if_pos hn]
  have hopt : optimalNumHashFunctions n 0 = JsNum.val 1 :=
    optimalNumHashFunctions_nonpos_zero n hn
  have hinit : SafeBloomFilter.init n p = Except.ok
      ⟨BloomFilter.init (0 : ℤ).toNat (optimalNumHashFunctions n 0).toNat, n⟩ := by
    rw [SafeBloomFilter.init, hest]
    rfl
  refine ⟨_, hinit, rfl, ?_, rfl, rfl, ?_⟩
  · show (optimalNumHashFunctions n 0).toNat = 1
    rw [hopt]
    simp [JsNum.toNat]
  · intro key
    apply safe_add_error_of_ge
    show ((⟨BloomFilter.init (0 : ℤ).toNat (optimalNumHashFunctions n 0).toNat, n⟩ :
      SafeBloomFilter).capacity) ≤ _
    simp only
    omega

/-- Witness for C10 at `expectedInserts = 0` and the (invalid) rate `-1/10`. -/
theorem c10_witness :
    (0 : ℤ) ≤ 0 ∧
      ∃ s, SafeBloomFilter.init 0 (-(1 : ℝ)/10) = Except.ok s ∧ s.bits = 0 ∧ s.k = 1 ∧
        s.capacity = 0 ∧ s.inserts = 0 ∧
        ∀ key, SafeBloomFilter.add (fun s _ => s) s key =
          Except.error "Filter at capacity" :=
  ⟨le_refl 0, c10_nonpositive_capacity (fun s _ => s) 0 (le_refl 0) (-(1 : ℝ)/10)⟩

/-- C4. Argument-check ordering of `estimateNumberBits`: for
`expectedInserts <= 0` it returns 0 for every rate, valid or not (the rate
is never validated); for `expectedInserts > 0` it fails exactly when the
rate is outside `[0, 1]`; in particular `(1000, -0.1)` and `(1000, 1.5)`
fail while `(0, -0.1)` returns 0. -/
theorem c4_estimate_arg_check_order :
    (∀ n : ℤ, n ≤ 0 → ∀ p : ℝ, estimateNumberBits n p = Except.ok 0) ∧
    (∀ n : ℤ, 0 < n → ∀ p : ℝ,
      ((∃ e, estimateNumberBits n p = Except.error e) ↔ (p < 0 ∨ 1 < p))) ∧
    estimateNumberBits 1000 (-(1 : ℝ)/10) = Except.error "Invalid false positive rate" ∧
    estimateNumberBits 1000 ((3 : ℝ)/2) = Except.error "Invalid false positive rate" ∧
    estimateNumberBits 0 (-(1 : ℝ)/10) = Except.ok 0 := by
  refine ⟨?_, ?_, ?_, ?_, ?_⟩
  · intro n hn p
    rw [estimateNumberBits, if_pos hn]
  · intro n hn p
    rw [estimateNumberBits, if_neg (by omega)]
    by_cases hp : p < 0 ∨ 1 < p
    · rw [if_pos hp]
      exact ⟨fun _ => hp, fun _ => ⟨_, rfl⟩⟩
    · rw [if_neg hp]
      refine ⟨fun ⟨e, he⟩ => ?_, fun h => absurd h hp⟩
      cases he
  · rw [estimateNumberBits, if_neg (by norm_num), if_pos (by norm_num)]
  · rw [estimateNumberBits, if_neg (by norm_num), if_pos (by norm_num)]
  · rw [estimateNumberBits, if_pos (by norm_num)]

/-- Witness for C4 (the universally quantified conjuncts have hypotheses;
instantiate the short-circuit branch at `n = -5`, rate `7/2`). -/
theorem c4_witness :
    (-5 : ℤ) ≤ 0 ∧ estimateNumberBits (-5) ((7 : ℝ)/2) = Except.ok 0 :=
  ⟨by decide, c4_estimate_arg_check_order.1 (-5) (by decide) ((7 : ℝ)/2)⟩

/-- C8 counterexample: at `(expectedInserts, bits) = (0, 48)` the computed
`48 / 0` is `Infinity`, the `optimal > 1` branch is taken, and
`Math.ceil(Infinity)` — `Infinity`, not an integer — is returned; the claim
quantifies over every pair including `expectedInserts <= 0` and asserts an
integer result `>= 1` there. -/
theorem c8_counterexample :
    optimalNumHashFunctions 0 48 = JsNum.posInf ∧
      ∀ m : ℤ, optimalNumHashFunctions 0 48 ≠ JsNum.val (m : ℝ) := by
  have h := optimalNumHashFunctions_posInf 48 (by norm_num)
  refine ⟨h, fun m hc => ?_⟩
  rw [h] at hc
  exact JsNum.noConfusion hc

/-- C8 (amended). Hash-count floor: for every pair of integer inputs with
`expectedInserts ≠ 0` or `bits <= 0` (so including every
`expectedInserts < 0` and every `bits = 0` input), `optimalNumHashFunctions`
returns an integer `>= 1`: `ceil((bits / expectedInserts) * ln 2)` whenever
that finite computed value is strictly greater than 1, and the minimum 1
otherwise; at the excluded pairs (`expectedInserts = 0` with `bits > 0`)
the division by zero makes it return `Infinity` instead of an integer. -/
theorem c8_hash_count_floor :
    (∀ n bits : ℤ, n ≠ 0 ∨ bits ≤ 0 →
      ∃ m : ℤ, optimalNumHashFunctions n bits = JsNum.val (m : ℝ) ∧ 1 ≤ m) ∧
    (∀ n bits : ℤ, n ≠ 0 → 1 < ((bits : ℝ) / (n : ℝ)) * Real.log 2 →
      optimalNumHashFunctions n bits =
        JsNum.val ((⌈((bits : ℝ) / (n : ℝ)) * Real.log 2⌉ : ℤ) : ℝ)) ∧
    (∀ n bits : ℤ, n ≠ 0 → ((bits : ℝ) / (n : ℝ)) * Real.log 2 ≤ 1 →
      optimalNumHashFunctions n bits = JsNum.val 1) ∧
    (∀ bits : ℤ, 0 < bits → optimalNumHashFunctions 0 bits = JsNum.posInf) := by
  refine ⟨?_, ?_, ?_, optimalNumHashFunctions_posInf⟩
  · intro n bits h
    by_cases hn : n = 0
    · subst hn
      rcases h with h | h
      · exact absurd rfl h
      · exact ⟨1, by rw [optimalNumHashFunctions_zero_nonpos bits h]; norm_num, le_refl 1⟩
    · rw [optimalNumHashFunctions_of_ne n bits hn]
      by_cases hgt : 1 < ((bits : ℝ) / (n : ℝ)) * Real.log 2
      · rw [if_pos hgt]
        refine ⟨⌈((bits : ℝ) / (n : ℝ)) * Real.log 2⌉, rfl, ?_⟩
        have hpos : (0 : ℝ) < ((bits : ℝ) / (n : ℝ)) * Real.log 2 := by linarith
        have := Int.ceil_pos.mpr hpos
        omega
      · rw [if_neg hgt]
        exact ⟨1, by norm_num, le_refl 1⟩
  · intro n bits hn hgt
    rw [optimalNumHashFunctions_of_ne n bits hn, if_pos hgt]
  · intro n bits hn hle
    rw [optimalNumHashFunctions_of_ne n bits hn, if_neg (by linarith)]

/-- Witness for C8 at the pair `(-3646, 48)` exercised by the test suite. -/
theorem c8_witness :
    ((-3646 : ℤ) ≠ 0 ∧ ((48 : ℤ) : ℝ) / ((-3646 : ℤ) : ℝ) * Real.log 2 ≤ 1 ∧
      optimalNumHashFunctions (-3646) 48 = JsNum.val 1) := by
  have hlog : (0 : ℝ) ≤ Real.log 2 := Real.log_nonneg (by norm_num)
  have hx : ((48 : ℤ) : ℝ) / ((-3646 : ℤ) : ℝ) ≤ 0 := by norm_num
  have hle : ((48 : ℤ) : ℝ) / ((-3646 : ℤ) : ℝ) * Real.log 2 ≤ 1 := by nlinarith
  exact ⟨by decide, hle, c8_hash_count_floor.2.2.1 (-3646) 48 (by decide) hle⟩

end BloomSpec
